import Mathlib

/-!
Verification of the nanobrowser core against its specification.

Components embedded here, each translated from the repository source:
* the Executed-Code Provenance Codec (message tags, decode, strip-for-display,
  outcome-detection predicate) from the side-panel message list component;
* the Favorites Store pure state-transition functions and the URL-pattern
  matcher from `packages/storage/lib/code-favorites/favorites.ts`;
* the Navigator prompt construction from
  `chrome-extension/src/background/agent/prompts/navigator.ts`;
* the Executor step loop (planner gating, fast-JS path), modelled from the
  specification and the requirements document, since the Executor source
  itself is not part of the provided sources.

Strings are embedded as `List Char`; JavaScript's `String.prototype.includes`
is embedded as decidable infix testing, and the two regular expressions used
by the code (the provenance-block regex and the wildcard-pattern regex) are
embedded as explicit first-occurrence splitting and a small anchored matcher
for the fragment of regexes the code can actually build.
-/

namespace Nanobrowser

/-- Character-list strings, the carrier for all embedded string functions. -/
abbrev Str := List Char

/-- Splits `s` around the first (leftmost) occurrence of `pat`: returns
`some (pre, post)` with `s = pre ++ pat ++ post` and `pre` shortest possible,
and `none` when `pat` does not occur in `s`.  This is the semantics of a
leftmost JavaScript regex match on a literal pattern. -/
def splitFirst (pat : Str) : Str → Option (Str × Str)
  | [] => if pat.isEmpty then some ([], []) else none
  | c :: rest =>
    if pat.isPrefixOf (c :: rest) then some ([], (c :: rest).drop pat.length)
    else
      match splitFirst pat rest with
      | some (pre, post) => some (c :: pre, post)
      | none => none

/-- The start marker of the executed-code provenance block. -/
def startTag : Str := "<nano_executed_code>".data

/-- The end marker of the executed-code provenance block. -/
def endTag : Str := "</nano_executed_code>".data

/-- Decode, from the `MessageBlock` component: the leftmost match of the
regex `<nano_executed_code>([\s\S]*?)<\/nano_executed_code>` on the message
content, returning the lazily-captured group; `none` when the regex does not
match (start marker absent, or no end marker after it). -/
def extractExecutedCode (content : Str) : Option Str :=
  match splitFirst startTag content with
  | none => none
  | some (_, rest) =>
    match splitFirst endTag rest with
    | none => none
    | some (inner, _) => some inner

/-- Strip-for-display, from the `MessageBlock` component:
`content.replace(/<nano_executed_code>[\s\S]*?<\/nano_executed_code>/g, '')`.
A global lazy replace removes, left to right, every block running from a
start marker to the first end marker after it, then resumes scanning after
the removed block. -/
def stripExecutedCode (content : Str) : Str :=
  match h1 : splitFirst startTag content with
  | none => content
  | some (pre, rest) =>
    match h2 : splitFirst endTag rest with
    | none => content
    | some (_, post) => pre ++ stripExecutedCode post
termination_by content.length
decreasing_by
  have key : ∀ (pat s pre post : Str), splitFirst pat s = some (pre, post) →
      pre.length + pat.length + post.length = s.length := by
    intro pat s
    induction s with
    | nil =>
      intro pre post h
      simp only [splitFirst, List.isEmpty_iff] at h
      split at h
      · cases h
        simp_all
      · cases h
    | cons c cs ih =>
      intro pre post h
      simp only [splitFirst] at h
      split at h
      · rename_i hpre
        cases h
        have hle : pat.length ≤ (c :: cs).length :=
          (List.isPrefixOf_iff_prefix.mp hpre).length_le
        simp only [List.length_drop, List.length_cons, List.length_nil] at hle ⊢
        omega
      · rename_i hpre
        cases hsp : splitFirst pat cs with
        | none => rw [hsp] at h; cases h
        | some pr =>
          rw [hsp] at h
          cases h
          have := ih pr.1 pr.2 (by rw [hsp])
          simp at this ⊢
          omega
  have e1 := key _ _ _ _ h1
  have e2 := key _ _ _ _ h2
  have hs : startTag.length = 20 := by decide
  have he : endTag.length = 21 := by decide
  simp only [List.length_append] at e1 e2 ⊢
  omega

/-- Outcome-detection predicate, from the `MessageBlock` component:
`content.includes('Code executed') || content.includes('Code execution failed')
|| content.includes('Error executing code')`. -/
def hasCodeExecutedText (content : Str) : Bool :=
  decide ("Code executed".data <:+: content) ||
  decide ("Code execution failed".data <:+: content) ||
  decide ("Error executing code".data <:+: content)

/-- Modelled from the spec: the Provenance Codec encode step (the
`execute_code` action source is not under the provided sources; the fix
snippets in the lessons-learned document show it).  Encoding appends the
delimited block containing the code verbatim after the outcome text. -/
def encodeExecutedCode (t code : Str) : Str :=
  t ++ startTag ++ code ++ endTag

/-- The three outcome branches of the code-execution action: success with an
output string, failure with an error string, and an unexpected error with an
exception message. -/
inductive ExecOutcome where
  | success (output : Str)
  | failure (error : Str)
  | unexpectedError (message : Str)

/-- Modelled from the spec: the human-readable outcome text of each branch of
the code-execution action, using the canonical phrasings recorded in the
lessons-learned document (`Code executed successfully. Output: ...`,
`Code execution failed: ...`, `Error executing code: ...`). -/
def outcomeText : ExecOutcome → Str
  | ExecOutcome.success output => "Code executed successfully. Output: ".data ++ output
  | ExecOutcome.failure error => "Code execution failed: ".data ++ error
  | ExecOutcome.unexpectedError message => "Error executing code: ".data ++ message

/-- Modelled from the spec: the message produced by the code-execution action
on each of its three outcome branches — the outcome text followed by the
delimited provenance block, uniformly on every branch. -/
def executeCodeMessage (o : ExecOutcome) (codeString : Str) : Str :=
  outcomeText o ++ startTag ++ codeString ++ endTag

/-- Reassembles a content string from an alternation of kept segments and
delimited blocks, followed by a tail: used to state that stripping removes
only delimited blocks. -/
def blocksJoin (bs : List (Str × Str)) (tl : Str) : Str :=
  (bs.map (fun p => p.1 ++ startTag ++ p.2 ++ endTag)).flatten ++ tl

/-- The kept part of a `blocksJoin` decomposition: the segments outside the
delimited blocks, in order, followed by the tail. -/
def keptJoin (bs : List (Str × Str)) (tl : Str) : Str :=
  (bs.map Prod.fst).flatten ++ tl

/-- A pattern has no nontrivial border: no proper nonempty suffix of it is
also a prefix.  Both provenance markers satisfy this, which is what makes
first-occurrence splitting around them well behaved. -/
def borderFree (pat : Str) : Prop :=
  ∀ r, r < pat.length → 0 < r → pat.drop r ≠ pat.take (pat.length - r)

instance (pat : Str) : Decidable (borderFree pat) :=
  inferInstanceAs (Decidable (∀ r, r < pat.length → 0 < r →
    pat.drop r ≠ pat.take (pat.length - r)))

/-- The result of the platform URL parser, restricted to what the favorites
matcher consumes: scheme, host, port and the remainder of the URL. -/
structure URLParts where
  scheme : Str
  host : Str
  port : Str
  tail : Str
deriving DecidableEq

/-- Characters allowed in a URL scheme. -/
def isSchemeChar (c : Char) : Bool :=
  c.isAlpha || c.isDigit || c == '+' || c == '-' || c == '.'

/-- Model of the platform `new URL(...)` boundary (external to the
repository), restricted to hierarchical `scheme://host[:port]...` URLs:
returns `none` (the embedded analogue of throwing) when the string has no
`://`, an invalid scheme, or an empty host, and the parts otherwise. -/
def parseURL (s : Str) : Option URLParts :=
  match splitFirst "://".data s with
  | none => none
  | some (scheme, rest) =>
    match scheme with
    | [] => none
    | c :: _ =>
      if ¬ c.isAlpha then none
      else if ¬ scheme.all isSchemeChar then none
      else
        let hostPort := rest.takeWhile (fun ch => ch != '/' && ch != '?' && ch != '#')
        let tail := rest.drop hostPort.length
        match splitFirst [':'] hostPort with
        | none => if hostPort = [] then none else some ⟨scheme, hostPort, [], tail⟩
        | some (host, port) =>
          if host = [] then none
          else if ¬ port.all Char.isDigit then none
          else some ⟨scheme, host, port, tail⟩

/-- The origin of a parsed URL: scheme, host and port, as compared by
`urlObj.origin === patternObj.origin` in the matcher. -/
def urlOrigin (u : URLParts) : Str :=
  u.scheme ++ "://".data ++ u.host ++ (match u.port with | [] => [] | p => ':' :: p)

/-- The character class of `replace(/[.*+?^$\x7b\x7d()|[\]\\]/g, '\\$&')` in
`urlMatchesPattern`: the regex metacharacters the code escapes. -/
def regexSpecialChars : Str :=
  ['.', '*', '+', '?', '^', '$', '\x7b', '\x7d', '(', ')', '|', '[', ']', '\\']

/-- First replace of `urlMatchesPattern`: prefix every regex metacharacter
with a backslash. -/
def escapeRegExp (s : Str) : Str :=
  s.flatMap (fun ch => if ch ∈ regexSpecialChars then ['\\', ch] else [ch])

/-- Second replace of `urlMatchesPattern`: `replace(/\*/g, '.*')`, turning
every `*` character — including one right after a backslash — into `.*`. -/
def starToDotStar (s : Str) : Str :=
  s.flatMap (fun ch => if ch == '*' then ['.', '*'] else [ch])

/-- A token of the regex fragment `urlMatchesPattern` can build: a literal
character or the any-character class `.`. -/
inductive RegTok where
  | lit : Char → RegTok
  | anyChar : RegTok
deriving DecidableEq

/-- Lexes a regex source of the fragment built by `urlMatchesPattern` into
tokens, each optionally starred: `\c` is a literal, an unescaped `.` is the
any-character class, any other character is a literal, and a following `*`
stars the token. -/
def lexRegex : Str → List (RegTok × Bool)
  | [] => []
  | '\\' :: c :: '*' :: rest => (RegTok.lit c, true) :: lexRegex rest
  | '\\' :: c :: rest => (RegTok.lit c, false) :: lexRegex rest
  | '.' :: '*' :: rest => (RegTok.anyChar, true) :: lexRegex rest
  | '.' :: rest => (RegTok.anyChar, false) :: lexRegex rest
  | c :: '*' :: rest => (RegTok.lit c, true) :: lexRegex rest
  | c :: rest => (RegTok.lit c, false) :: lexRegex rest

/-- Whether a regex token matches one character. -/
def tokMatches : RegTok → Char → Bool
  | RegTok.lit c, d => c == d
  | RegTok.anyChar, _ => true

/-- Anchored matching of a lexed regex (`^...$` with `.test`) over
optionally-starred single-character tokens: a starred token consumes a run of
matching characters of any length, which is exactly backtracking for this
fragment. -/
def rmatch : List (RegTok × Bool) → Str → Bool
  | [], s => s.isEmpty
  | (tok, false) :: ts', s =>
    match s with
    | [] => false
    | c :: cs => tokMatches tok c && rmatch ts' cs
  | (tok, true) :: ts', s =>
    (List.range (s.length + 1)).any (fun k =>
      (s.take k).all (tokMatches tok) && rmatch ts' (s.drop k))

/-- The URL-pattern matcher `urlMatchesPattern` from
`packages/storage/lib/code-favorites/favorites.ts`: parse both strings (the
`try` block), then exact equality, then same origin, then test the url
against the regex obtained by escaping the pattern and replacing `*` with
`.*`; on a parse failure (the `catch` block) fall back to equality or
substring containment in either direction. -/
def urlMatchesPattern (url pattern : Str) : Bool :=
  match parseURL url, parseURL pattern with
  | some urlObj, some patternObj =>
    if url = pattern then true
    else if urlOrigin urlObj = urlOrigin patternObj then true
    else rmatch (lexRegex (starToDotStar (escapeRegExp pattern))) url
  | _, _ =>
    decide (url = pattern) || decide (pattern <:+: url) || decide (url <:+: pattern)

/-- Modelled from the spec: wildcard matching in which each literal character
of the pattern matches itself and each `*` matches any substring, anchored at
both ends — the behaviour the wildcard branch of `urlMatchesPattern` is
documented to implement. -/
def globMatch : Str → Str → Bool
  | [], s => s.isEmpty
  | '*' :: ps, s => (List.range (s.length + 1)).any (fun k => globMatch ps (s.drop k))
  | p :: ps, s =>
    match s with
    | [] => false
    | c :: cs => p == c && globMatch ps cs

/-- A saved code favorite, from `favorites.ts`. -/
structure CodeFavorite where
  id : Nat
  name : Str
  code : Str
  urlPattern : Str
  useCount : Nat
  createdAt : Nat
deriving DecidableEq

/-- The persisted favorites collection record, from `favorites.ts`. -/
structure CodeFavoritesStorage where
  nextId : Nat
  favorites : List CodeFavorite
deriving DecidableEq

/-- The initial state of the favorites collection. -/
def favoritesInitialState : CodeFavoritesStorage :=
  { nextId := 1, favorites := [] }

/-- `addFavorite` as the pure transition applied inside the store's atomic
read-modify-write: allocate `nextId`, prepend the new record, bump `nextId`;
also returns the created record (the code reads it back as `favorites[0]`).
`now` stands for the `Date.now()` timestamp. -/
def addFavorite (name code urlPattern : Str) (now : Nat)
    (s : CodeFavoritesStorage) : CodeFavoritesStorage × CodeFavorite :=
  let newFavorite : CodeFavorite :=
    { id := s.nextId, name := name, code := code, urlPattern := urlPattern,
      useCount := 0, createdAt := now }
  ({ nextId := s.nextId + 1, favorites := newFavorite :: s.favorites }, newFavorite)

/-- `updateFavorite` as the pure transition: map over the records replacing
name/code/urlPattern of those whose id matches, keep the previous state when
none matches, and return the last matching record's updated form (the code's
`updatedFavorite` variable, written once per matching record). -/
def updateFavorite (i : Nat) (name code urlPattern : Str)
    (s : CodeFavoritesStorage) : CodeFavoritesStorage × Option CodeFavorite :=
  let updatedFavorites := s.favorites.map (fun favorite =>
    if favorite.id == i then
      { favorite with name := name, code := code, urlPattern := urlPattern }
    else favorite)
  match (s.favorites.filter (fun favorite => favorite.id == i)).getLast? with
  | none => (s, none)
  | some favorite =>
    ({ s with favorites := updatedFavorites },
     some { favorite with name := name, code := code, urlPattern := urlPattern })

/-- `removeFavorite` as the pure transition: filter the matching id out. -/
def removeFavorite (i : Nat) (s : CodeFavoritesStorage) : CodeFavoritesStorage :=
  { s with favorites := s.favorites.filter (fun favorite => favorite.id != i) }

/-- `incrementUseCount` as the pure transition: bump `useCount` of the
matching record, no-op when absent. -/
def incrementUseCount (i : Nat) (s : CodeFavoritesStorage) : CodeFavoritesStorage :=
  { s with favorites := s.favorites.map (fun favorite =>
      if favorite.id == i then { favorite with useCount := favorite.useCount + 1 }
      else favorite) }

/-- `getFavoritesByUrl`: the records whose pattern matches the url, in
storage order. -/
def getFavoritesByUrl (url : Str) (s : CodeFavoritesStorage) : List CodeFavorite :=
  s.favorites.filter (fun favorite => urlMatchesPattern url favorite.urlPattern)

/-- One mutating Favorites Store operation, for reasoning about reachable
collection states. -/
inductive FavOp where
  | add (name code urlPattern : Str) (now : Nat)
  | update (i : Nat) (name code urlPattern : Str)
  | remove (i : Nat)
  | increment (i : Nat)

/-- Applies one operation's state transition. -/
def applyOp (op : FavOp) (s : CodeFavoritesStorage) : CodeFavoritesStorage :=
  match op with
  | FavOp.add n c u t => (addFavorite n c u t s).1
  | FavOp.update i n c u => (updateFavorite i n c u s).1
  | FavOp.remove i => removeFavorite i s
  | FavOp.increment i => incrementUseCount i s

/-- Applies a sequence of operations in order. -/
def applyOps (ops : List FavOp) (s : CodeFavoritesStorage) : CodeFavoritesStorage :=
  ops.foldl (fun st op => applyOp op st) s

/-- The identifiers allocated by the `add` operations of a run, in the order
they are allocated: used to state that identifiers are never reused. -/
def allocIds : List FavOp → CodeFavoritesStorage → List Nat
  | [], _ => []
  | FavOp.add n c u t :: ops, s =>
    s.nextId :: allocIds ops (applyOp (FavOp.add n c u t) s)
  | op :: ops, s => allocIds ops (applyOp op s)

/-- A favorite saved on one page of a domain, for the retrieval example. -/
def sampleFav1 : CodeFavorite :=
  { id := 1, name := "first".data, code := "code1".data,
    urlPattern := "https://example.com/page1".data, useCount := 0, createdAt := 100 }

/-- A favorite saved on a different origin, for the retrieval example. -/
def sampleFav2 : CodeFavorite :=
  { id := 2, name := "second".data, code := "code2".data,
    urlPattern := "https://other.com/".data, useCount := 0, createdAt := 50 }

/-- A two-favorite collection for the retrieval example. -/
def sampleCollection : CodeFavoritesStorage :=
  { nextId := 3, favorites := [sampleFav1, sampleFav2] }

/-- The general settings record, with the two fields the prompt and the
executor consume. -/
structure GeneralSettingsConfig where
  allowCodeGeneration : Bool
  fastJsMode : Bool
deriving DecidableEq

/-- The truthiness of `settings?.allowCodeGeneration` for an optional
settings object. -/
def allowCodeGen : Option GeneralSettingsConfig → Bool
  | none => false
  | some g => g.allowCodeGeneration

/-- JavaScript `String.prototype.replace` with a plain-string pattern:
replaces the first occurrence only, and returns the string unchanged when the
pattern does not occur. -/
def replaceFirst (s pat repl : Str) : Str :=
  match splitFirst pat s with
  | none => s
  | some (pre, post) => pre ++ repl ++ post

/-- JavaScript `String.prototype.trim`: drop whitespace from both ends. -/
def jsTrim (s : Str) : Str :=
  ((s.dropWhile Char.isWhitespace).reverse.dropWhile Char.isWhitespace).reverse

/-- The code-execution instruction section appended by the `NavigatorPrompt`
constructor when `allowCodeGeneration` is set, verbatim from `navigator.ts`. -/
def codeExecutionSection : Str := String.data <|
  "\n\n13. Code Execution (CRITICAL - USE THIS FOR PAGE MANIPULATION):\n\n" ++
  "- ***WHEN USER ASKS TO CHANGE/MODIFY THE PAGE (background, colors, styles, hide/show elements, etc.), YOU MUST USE execute_code ACTION IMMEDIATELY***\n" ++
  "- DO NOT provide code examples, instructions, or explanations - EXECUTE THE CODE DIRECTLY using execute_code action\n" ++
  "- The execute_code action runs JavaScript in the page context and can manipulate the DOM directly\n" ++
  "- Example for \"make background blue\": \x7b\"execute_code\": \x7b\"intent\": \"Change page background to blue\", \"code\": \"() => \x7b document.body.style.backgroundColor = \x27blue\x27; return \x7bsuccess: true, output: \x27Background changed to blue\x27\x7d; \x7d\"\x7d\x7d\n" ++
  "- Example for \"hide element\": \x7b\"execute_code\": \x7b\"intent\": \"Hide element\", \"code\": \"() => \x7b document.querySelector(\x27#element\x27).style.display = \x27none\x27; return \x7bsuccess: true\x7d; \x7d\"\x7d\x7d\n" ++
  "- The code you provide should be a function that returns an object with \x7bsuccess: boolean, output?: string, error?: string\x7d\n" ++
  "- For page manipulation tasks (change colors, modify styles, hide/show elements, etc.), ALWAYS use execute_code - never explain or show code examples\n" ++
  "- The code runs in the page context and has full access to the DOM and page JavaScript\n" ++
  "- If user asks to modify the page appearance or behavior, use execute_code immediately"

/-- The base prompt the constructor computes before the conditional append:
the template with the first `\x7b\x7bmax_actions\x7d\x7d` placeholder
replaced by the decimal rendering of `maxActionsPerStep`, trimmed.  The
template itself is a parameter because its source file is not among the
provided sources. -/
def navigatorBasePrompt (template : Str) (maxActionsPerStep : Nat) : Str :=
  jsTrim (replaceFirst template "\x7b\x7bmax_actions\x7d\x7d".data
    (Nat.repr maxActionsPerStep).data)

/-- The system message built by the `NavigatorPrompt` constructor from
`navigator.ts`: the formatted base prompt, with the code-execution section
appended exactly when `settings?.allowCodeGeneration` is true. -/
def buildNavigatorPrompt (template : Str) (maxActionsPerStep : Nat)
    (settings : Option GeneralSettingsConfig) : Str :=
  let formattedPrompt := navigatorBasePrompt template maxActionsPerStep
  if allowCodeGen settings then formattedPrompt ++ codeExecutionSection
  else formattedPrompt

/-- Modelled from the spec: `fastJsModeEnabled`, computed once before the
step loop: `settings?.fastJsMode === true && settings?.allowCodeGeneration
=== true`. -/
def fastJsModeEnabled : Option GeneralSettingsConfig → Bool
  | none => false
  | some g => g.fastJsMode && g.allowCodeGeneration

/-- Modelled from the spec: `jsOnlyForThisTask`, computed once before the
step loop from the settings and the classification of the current task. -/
def jsOnlyForThisTask (settings : Option GeneralSettingsConfig)
    (taskIsJs : Bool) : Bool :=
  fastJsModeEnabled settings && taskIsJs

/-- Modelled from the spec: the planner gate of each iteration —
`this.planner && !jsOnlyForThisTask && (nSteps % planningInterval === 0 ||
navigatorDone)`. -/
def shouldRunPlanner (plannerConfigured jsOnly : Bool)
    (nSteps planningInterval : Nat) (navigatorDone : Bool) : Bool :=
  plannerConfigured && !jsOnly &&
    (nSteps % planningInterval == 0 || navigatorDone)

/-- The fixed inputs of one Executor run: whether a planner collaborator is
configured, the planning interval, the step ceiling, the settings, and the
session's task sequence (the last entry is the current task). -/
structure LoopConfig where
  plannerConfigured : Bool
  planningInterval : Nat
  maxSteps : Nat
  settings : Option GeneralSettingsConfig
  tasks : List Str

/-- The terminal states of the step loop reachable in this model. -/
inductive LoopTerminal where
  | completed
  | cancelled
  | maxStepsReached
deriving DecidableEq

/-- What one loop iteration did: its step-counter value, the
navigator-just-finished flag it entered with, and whether the planning pass
ran in it. -/
structure IterRecord where
  step : Nat
  navPrev : Bool
  plannerRan : Bool
deriving DecidableEq

/-- Modelled from the spec: the Executor step loop (its source is not among
the provided sources).  Per iteration: increment the step counter before any
work; run the planning pass exactly when the planner gate holds; exit
`completed` when the planner signals task completion; run the execution pass;
exit `completed` when it self-reports done; exit `cancelled` on the external
cancellation signal; exit `maxStepsReached` at the step ceiling.  The
planning and execution collaborators are oracles indexed by the step counter,
and the returned trace records every iteration. -/
def runLoop (cfg : LoopConfig) (jsOnly : Bool)
    (planDone navDone cancelSignal : Nat → Bool) :
    Nat → Nat → Bool → List IterRecord × LoopTerminal
  | 0, _, _ => ([], LoopTerminal.maxStepsReached)
  | fuel + 1, nPrev, navPrev =>
    let n := nPrev + 1
    let planner := shouldRunPlanner cfg.plannerConfigured jsOnly n
      cfg.planningInterval navPrev
    let record : IterRecord := { step := n, navPrev := navPrev, plannerRan := planner }
    if planner && planDone n then ([record], LoopTerminal.completed)
    else
      let navD := navDone n
      if navD then ([record], LoopTerminal.completed)
      else if cancelSignal n then ([record], LoopTerminal.cancelled)
      else if cfg.maxSteps ≤ n then ([record], LoopTerminal.maxStepsReached)
      else
        let result := runLoop cfg jsOnly planDone navDone cancelSignal fuel n navD
        (record :: result.1, result.2)

/-- Modelled from the spec: one Executor run — read the current task (last
entry of the task sequence), compute `jsOnlyForThisTask` once, then run the
step loop from a zero step counter with the navigator-just-finished flag
clear. -/
def executeTask (cfg : LoopConfig) (classify : Str → Bool)
    (planDone navDone cancelSignal : Nat → Bool) : List IterRecord × LoopTerminal :=
  let currentTask := cfg.tasks.getLastD []
  let jsOnly := jsOnlyForThisTask cfg.settings (classify currentTask)
  runLoop cfg jsOnly planDone navDone cancelSignal cfg.maxSteps 0 false

/-- A concrete Executor configuration with a planner, fast JS mode and code
generation both enabled, used to instantiate the planner-gating theorem. -/
def sampleLoopConfig : LoopConfig :=
  { plannerConfigured := true, planningInterval := 3, maxSteps := 4,
    settings := some { allowCodeGeneration := true, fastJsMode := true },
    tasks := ["use js to hide the banner".data] }

/-- A successful split exposes the decomposition of the input around the
pattern. -/
theorem splitFirst_eq {pat : Str} : ∀ {s pre post : Str},
    splitFirst pat s = some (pre, post) → s = pre ++ pat ++ post := by
  intro s
  induction s with
  | nil =>
    intro pre post h
    simp only [splitFirst, List.isEmpty_iff] at h
    split at h
    · rename_i hp
      cases h
      simp [hp]
    · cases h
  | cons c cs ih =>
    intro pre post h
    simp only [splitFirst] at h
    split at h
    · rename_i hpre
      cases h
      obtain ⟨t, ht⟩ := List.isPrefixOf_iff_prefix.mp hpre
      rw [← ht, List.nil_append, List.drop_left]
    · cases hsp : splitFirst pat cs with
      | none => rw [hsp] at h; cases h
      | some pr =>
        obtain ⟨p1, p2⟩ := pr
        rw [hsp] at h
        simp only [Option.some.injEq, Prod.mk.injEq] at h
        obtain ⟨h1, h2⟩ := h
        subst h1; subst h2
        have := @ih p1 p2 hsp
        simp [this]

/-- For a nonempty, border-free pattern, splitting a string of the shape
`a ++ pat ++ b` whose prefix `a` does not contain the pattern finds exactly
that decomposition. -/
theorem splitFirst_append {pat : Str} (hne : pat ≠ []) (hbf : borderFree pat) :
    ∀ (a b : Str), ¬ pat <:+: a → splitFirst pat (a ++ pat ++ b) = some (a, b) := by
  intro a
  induction a with
  | nil =>
    intro b _
    cases pat with
    | nil => exact absurd rfl hne
    | cons p pat' =>
      rw [List.nil_append, List.cons_append, splitFirst]
      rw [if_pos (List.isPrefixOf_iff_prefix.mpr (by rw [← List.cons_append]; exact List.prefix_append _ b))]
      rw [← List.cons_append, List.drop_left]
  | cons x a' ih =>
    intro b hnin
    have hshape : (x :: a') ++ pat ++ b = x :: (a' ++ pat ++ b) := by simp
    have hnotpre : ¬ pat.isPrefixOf (x :: (a' ++ pat ++ b)) = true := by
      intro hc
      have hp : pat <+: x :: (a' ++ pat ++ b) := List.isPrefixOf_iff_prefix.mp hc
      have hwhole : x :: (a' ++ pat ++ b) = (x :: a') ++ (pat ++ b) := by simp
      rw [hwhole] at hp
      rcases Nat.lt_or_ge (x :: a').length pat.length with hlt | hge
      swap
      · have hpa : pat <+: (x :: a') :=
          List.prefix_of_prefix_length_le hp (List.prefix_append _ _) hge
        exact hnin hpa.isInfix
      · have hap : (x :: a') <+: pat :=
          List.prefix_of_prefix_length_le (List.prefix_append _ _) hp (Nat.le_of_lt hlt)
        obtain ⟨u, hu⟩ := hap
        have hulen : u.length = pat.length - (x :: a').length := by
          have := congrArg List.length hu
          simp only [List.length_append] at this
          omega
        have hup : u <+: pat ++ b := by
          have : (x :: a') ++ u <+: (x :: a') ++ (pat ++ b) := by rw [hu]; exact hp
          exact (List.prefix_append_right_inj (x :: a')).mp this
        have hupat : u <+: pat :=
          List.prefix_of_prefix_length_le hup (List.prefix_append _ _) (by omega)
        have hutake : u = pat.take (pat.length - (x :: a').length) := by
          rw [← hulen]; exact List.prefix_iff_eq_take.mp hupat
        have hudrop : u = pat.drop (x :: a').length := by
          rw [← hu, List.drop_left]
        exact hbf (x :: a').length (by omega) (by simp)
          (by rw [← hudrop, ← hutake])
    rw [hshape, splitFirst, if_neg hnotpre]
    have ha' : ¬ pat <:+: a' := fun h => hnin (List.infix_cons h)
    rw [ih b ha']

/-- C2 (amended): on each of the three outcome branches the code-execution
message is the outcome text followed by the delimited block containing the
code verbatim, and whenever the outcome text does not contain the start
marker and the code does not contain the end marker, decoding the encoded
message returns exactly the code. -/
theorem provenance_encode_decode_roundTrip :
    (∀ (o : ExecOutcome) (code : Str),
       executeCodeMessage o code = encodeExecutedCode (outcomeText o) code) ∧
    (∀ (t c : Str), ¬ startTag <:+: t → ¬ endTag <:+: c →
       encodeExecutedCode t c = t ++ startTag ++ c ++ endTag ∧
       extractExecutedCode (encodeExecutedCode t c) = some c) := by
  constructor
  · intro o code
    cases o <;> rfl
  · intro t c ht hc
    refine ⟨rfl, ?_⟩
    have h1 : splitFirst startTag (t ++ startTag ++ (c ++ endTag)) =
        some (t, c ++ endTag) :=
      splitFirst_append (by decide) (by decide) t (c ++ endTag) ht
    have h2 : splitFirst endTag (c ++ endTag) = some (c, []) := by
      have h := @splitFirst_append endTag (by decide) (by decide) c [] hc
      simpa using h
    have h1' : splitFirst startTag (t ++ (startTag ++ (c ++ endTag))) =
        some (t, c ++ endTag) := by
      rw [← List.append_assoc]; exact h1
    unfold extractExecutedCode encodeExecutedCode
    rw [show t ++ startTag ++ c ++ endTag = t ++ (startTag ++ (c ++ endTag)) by simp]
    simp [h1', h2]

/-- C2 counterexample: with the code string equal to the end marker itself,
decoding the encoded success message returns the empty captured group rather
than the code, so the round trip fails for arbitrary code strings. -/
theorem provenance_roundTrip_counterexample :
    extractExecutedCode (executeCodeMessage
      (ExecOutcome.success "done".data) "</nano_executed_code>".data) ≠
      some "</nano_executed_code>".data := by decide

/-- C2 witness: the round trip holds at a concrete outcome text and code. -/
theorem provenance_roundTrip_witness :
    extractExecutedCode (encodeExecutedCode
      "Code executed successfully. Output: ok".data
      "document.title = \x27hi\x27;".data) =
      some "document.title = \x27hi\x27;".data :=
  (provenance_encode_decode_roundTrip.2 _ _ (by decide) (by decide)).2

/-- Stripping a content with no start marker returns it unchanged. -/
theorem strip_eq_noStart {s : Str} (h : splitFirst startTag s = none) :
    stripExecutedCode s = s := by
  rw [stripExecutedCode]
  split
  · rfl
  · rename_i pre rest h1
    rw [h] at h1
    cases h1

/-- Stripping a content whose start marker has no end marker after it returns
it unchanged. -/
theorem strip_eq_noEnd {s pre rest : Str}
    (h1 : splitFirst startTag s = some (pre, rest))
    (h2 : splitFirst endTag rest = none) : stripExecutedCode s = s := by
  rw [stripExecutedCode]
  split
  · rfl
  · rename_i pre' rest' h1'
    rw [h1] at h1'
    simp only [Option.some.injEq, Prod.mk.injEq] at h1'
    obtain ⟨hp, hr⟩ := h1'
    subst hp
    subst hr
    split
    · rfl
    · rename_i inner' post' h2'
      rw [h2] at h2'
      cases h2'

/-- Stripping a content with a complete block removes the block and recurses
after it. -/
theorem strip_eq_step {s pre rest inner post : Str}
    (h1 : splitFirst startTag s = some (pre, rest))
    (h2 : splitFirst endTag rest = some (inner, post)) :
    stripExecutedCode s = pre ++ stripExecutedCode post := by
  rw [stripExecutedCode]
  split
  · rename_i h1'
    rw [h1] at h1'
    cases h1'
  · rename_i pre' rest' h1'
    rw [h1] at h1'
    simp only [Option.some.injEq, Prod.mk.injEq] at h1'
    obtain ⟨hp, hr⟩ := h1'
    subst hp
    subst hr
    split
    · rename_i h2'
      rw [h2] at h2'
      cases h2'
    · rename_i inner' post' h2'
      rw [h2] at h2'
      simp only [Option.some.injEq, Prod.mk.injEq] at h2'
      obtain ⟨hi, hpo⟩ := h2'
      subst hpo
      rfl

/-- A content from which no block can be decoded strips to itself. -/
theorem strip_of_extract_none {s : Str} (h : extractExecutedCode s = none) :
    stripExecutedCode s = s := by
  unfold extractExecutedCode at h
  cases h1 : splitFirst startTag s with
  | none => exact strip_eq_noStart h1
  | some pr =>
    obtain ⟨pre, rest⟩ := pr
    rw [h1] at h
    cases h2 : splitFirst endTag rest with
    | none => exact strip_eq_noEnd h1 h2
    | some pr2 =>
      obtain ⟨inner, post⟩ := pr2
      simp only [h2] at h
      cases h

/-- Every content decomposes into kept segments and delimited blocks such
that stripping keeps exactly the kept segments: stripping never removes text
outside a delimited block. -/
theorem strip_decomposition : ∀ (s : Str),
    ∃ bs tl, s = blocksJoin bs tl ∧ stripExecutedCode s = keptJoin bs tl := by
  have main : ∀ (n : Nat) (s : Str), s.length ≤ n →
      ∃ bs tl, s = blocksJoin bs tl ∧ stripExecutedCode s = keptJoin bs tl := by
    intro n
    induction n with
    | zero =>
      intro s hs
      have hnil : s = [] := List.eq_nil_of_length_eq_zero (Nat.le_zero.mp hs)
      subst hnil
      exact ⟨[], [], by simp [blocksJoin],
        by rw [strip_eq_noStart (by decide)]; simp [keptJoin]⟩
    | succ n ih =>
      intro s hs
      cases h1 : splitFirst startTag s with
      | none =>
        exact ⟨[], s, by simp [blocksJoin], by rw [strip_eq_noStart h1]; simp [keptJoin]⟩
      | some pr =>
        obtain ⟨pre, rest⟩ := pr
        cases h2 : splitFirst endTag rest with
        | none =>
          exact ⟨[], s, by simp [blocksJoin],
            by rw [strip_eq_noEnd h1 h2]; simp [keptJoin]⟩
        | some pr2 =>
          obtain ⟨inner, post⟩ := pr2
          have hsplit1 := splitFirst_eq h1
          have hsplit2 := splitFirst_eq h2
          have hlen : post.length ≤ n := by
            have l1 := congrArg List.length hsplit1
            have l2 := congrArg List.length hsplit2
            have hs20 : startTag.length = 20 := by decide
            have he21 : endTag.length = 21 := by decide
            simp only [List.length_append] at l1 l2
            omega
          obtain ⟨bs, tl, hb, hk⟩ := ih post hlen
          refine ⟨(pre, inner) :: bs, tl, ?_, ?_⟩
          · rw [hsplit1, hsplit2, hb]
            simp [blocksJoin, List.append_assoc]
          · rw [strip_eq_step h1 h2, hk]
            simp [keptJoin, List.append_assoc]
  intro s
  exact main s.length s (Nat.le_refl _)

/-- C4 (amended): strip-for-display removes only delimited blocks — every
message content splits into kept segments and removed blocks, and stripping
keeps exactly the kept segments — and stripping twice equals stripping once
for every content whose stripped form contains no further decodable block;
unconditional idempotence fails because a removed block's seam can
reassemble a new block. -/
theorem strip_frame_and_conditional_idempotence :
    (∀ s : Str, ∃ bs tl, s = blocksJoin bs tl ∧
       stripExecutedCode s = keptJoin bs tl) ∧
    (∀ s : Str, extractExecutedCode (stripExecutedCode s) = none →
       stripExecutedCode (stripExecutedCode s) = stripExecutedCode s) :=
  ⟨strip_decomposition, fun _ h => strip_of_extract_none h⟩

/-- C4 counterexample: an input in which removing the inner block makes its
seam reassemble into a new complete block, so a second strip removes more
text than the first and stripping is not idempotent. -/
theorem strip_idempotence_counterexample :
    stripExecutedCode (stripExecutedCode
      "<nano_exec<nano_executed_code>x</nano_executed_code>uted_code>hello</nano_executed_code>".data) ≠
      stripExecutedCode
      "<nano_exec<nano_executed_code>x</nano_executed_code>uted_code>hello</nano_executed_code>".data := by
  have h1 : splitFirst startTag
      "<nano_exec<nano_executed_code>x</nano_executed_code>uted_code>hello</nano_executed_code>".data =
      some ("<nano_exec".data,
        "x</nano_executed_code>uted_code>hello</nano_executed_code>".data) := by decide
  have h2 : splitFirst endTag
      "x</nano_executed_code>uted_code>hello</nano_executed_code>".data =
      some ("x".data, "uted_code>hello</nano_executed_code>".data) := by decide
  have h3 : splitFirst startTag "uted_code>hello</nano_executed_code>".data = none := by
    decide
  have e1 : stripExecutedCode
      "<nano_exec<nano_executed_code>x</nano_executed_code>uted_code>hello</nano_executed_code>".data =
      "<nano_executed_code>hello</nano_executed_code>".data := by
    rw [strip_eq_step h1 h2, strip_eq_noStart h3]
    decide
  have h4 : splitFirst startTag "<nano_executed_code>hello</nano_executed_code>".data =
      some ([], "hello</nano_executed_code>".data) := by decide
  have h5 : splitFirst endTag "hello</nano_executed_code>".data =
      some ("hello".data, []) := by decide
  have h6 : splitFirst startTag ([] : Str) = none := by decide
  have e2 : stripExecutedCode "<nano_executed_code>hello</nano_executed_code>".data =
      [] := by
    rw [strip_eq_step h4 h5, strip_eq_noStart h6]
    decide
  rw [e1, e2]
  decide

/-- C4 witness: on a concrete content with one block, stripping twice equals
stripping once, by the conditional-idempotence part of the theorem. -/
theorem strip_idempotence_witness :
    stripExecutedCode (stripExecutedCode
      "hello <nano_executed_code>x</nano_executed_code> world".data) =
      stripExecutedCode "hello <nano_executed_code>x</nano_executed_code> world".data := by
  have h1 : splitFirst startTag
      "hello <nano_executed_code>x</nano_executed_code> world".data =
      some ("hello ".data, "x</nano_executed_code> world".data) := by decide
  have h2 : splitFirst endTag "x</nano_executed_code> world".data =
      some ("x".data, " world".data) := by decide
  have h3 : splitFirst startTag " world".data = none := by decide
  have e1 : stripExecutedCode
      "hello <nano_executed_code>x</nano_executed_code> world".data =
      "hello  world".data := by
    rw [strip_eq_step h1 h2, strip_eq_noStart h3]
    decide
  exact strip_frame_and_conditional_idempotence.2 _ (by rw [e1]; decide)

/-- C5: the outcome-detection predicate holds exactly when the content
contains one of the three canonical outcome phrasings — success, failure or
error — and is false for a message containing none of them. -/
theorem outcome_detection_iff (content : Str) :
    hasCodeExecutedText content = true ↔
      ("Code executed".data <:+: content ∨
       "Code execution failed".data <:+: content ∨
       "Error executing code".data <:+: content) := by
  simp [hasCodeExecutedText, or_assoc]

/-- C3: at the spec's own example — a wildcard pattern against a subdomain
URL of the same shape — the code's matcher answers `false` while the
documented wildcard semantics (each `*` matching any substring) answers
`true`: escaping `*` to `\*` before replacing `*` with `.*` yields `\.*`,
which matches a run of literal dots instead of any substring. -/
theorem wildcard_matching_divergence :
    urlMatchesPattern "https://sub.example.com/anything".data
      "https://*.example.com/*".data = false ∧
    globMatch "https://*.example.com/*".data
      "https://sub.example.com/anything".data = true ∧
    starToDotStar (escapeRegExp "https://*.example.com/*".data) =
      "https://\\.*\\.example\\.com/\\.*".data := by
  refine ⟨by decide, by decide, by decide⟩

/-- Every iteration record of a loop run has its planner flag equal to the
planner gate evaluated at that iteration's step counter and entry
navigator-done flag. -/
theorem runLoop_plannerRan (cfg : LoopConfig) (jsOnly : Bool)
    (planDone navDone cancelSignal : Nat → Bool) :
    ∀ (fuel nPrev : Nat) (navPrev : Bool) (r : IterRecord),
      r ∈ (runLoop cfg jsOnly planDone navDone cancelSignal fuel nPrev navPrev).1 →
      r.plannerRan = shouldRunPlanner cfg.plannerConfigured jsOnly r.step
        cfg.planningInterval r.navPrev := by
  intro fuel
  induction fuel with
  | zero =>
    intro nPrev navPrev r hr
    simp [runLoop] at hr
  | succ fuel ih =>
    intro nPrev navPrev r hr
    simp only [runLoop] at hr
    split at hr
    · simp only [List.mem_singleton] at hr
      subst hr
      rfl
    · split at hr
      · simp only [List.mem_singleton] at hr
        subst hr
        rfl
      · split at hr
        · simp only [List.mem_singleton] at hr
          subst hr
          rfl
        · split at hr
          · simp only [List.mem_singleton] at hr
            subst hr
            rfl
          · simp only [List.mem_cons] at hr
            rcases hr with hr | hr
            · subst hr
              rfl
            · exact ih _ _ r hr

/-- C1: in every iteration of the step loop, the planning pass runs iff a
planner is configured, `jsOnlyForThisTask` (computed once from the settings
and the classification of the current task) is false, and the step counter is
a multiple of the planning interval or the previous execution pass signalled
completion; consequently with both settings true and a JS-classified task the
planner never runs, and with `allowCodeGeneration` false the planner runs on
its normal schedule. -/
theorem executor_planner_gating (cfg : LoopConfig) (classify : Str → Bool)
    (planDone navDone cancelSignal : Nat → Bool) :
    (∀ r ∈ (executeTask cfg classify planDone navDone cancelSignal).1,
       r.plannerRan = (cfg.plannerConfigured &&
         !(jsOnlyForThisTask cfg.settings (classify (cfg.tasks.getLastD []))) &&
         (r.step % cfg.planningInterval == 0 || r.navPrev))) ∧
    (jsOnlyForThisTask cfg.settings (classify (cfg.tasks.getLastD [])) = true →
       ∀ r ∈ (executeTask cfg classify planDone navDone cancelSignal).1,
         r.plannerRan = false) ∧
    (∀ g : GeneralSettingsConfig, cfg.settings = some g →
       g.allowCodeGeneration = false →
       ∀ r ∈ (executeTask cfg classify planDone navDone cancelSignal).1,
         r.plannerRan = (cfg.plannerConfigured &&
           (r.step % cfg.planningInterval == 0 || r.navPrev))) := by
  refine ⟨?_, ?_, ?_⟩
  · intro r hr
    have h := runLoop_plannerRan cfg
      (jsOnlyForThisTask cfg.settings (classify (cfg.tasks.getLastD [])))
      planDone navDone cancelSignal cfg.maxSteps 0 false r
      (by simpa [executeTask] using hr)
    simpa [shouldRunPlanner] using h
  · intro hjs r hr
    have h := runLoop_plannerRan cfg
      (jsOnlyForThisTask cfg.settings (classify (cfg.tasks.getLastD [])))
      planDone navDone cancelSignal cfg.maxSteps 0 false r
      (by simpa [executeTask] using hr)
    rw [h]
    simp only [shouldRunPlanner, hjs]
    simp
  · intro g hg hacg r hr
    have h := runLoop_plannerRan cfg
      (jsOnlyForThisTask cfg.settings (classify (cfg.tasks.getLastD [])))
      planDone navDone cancelSignal cfg.maxSteps 0 false r
      (by simpa [executeTask] using hr)
    rw [h]
    have hjs : jsOnlyForThisTask cfg.settings (classify (cfg.tasks.getLastD [])) =
        false := by
      simp [jsOnlyForThisTask, fastJsModeEnabled, hg, hacg]
    simp only [shouldRunPlanner, hjs]
    simp

/-- C1 witness: with fast JS mode and code generation both enabled and the
task classified as client-side JS, no iteration of a concrete four-step run
invokes the planner. -/
theorem executor_planner_gating_witness :
    ((executeTask sampleLoopConfig (fun _ => true) (fun _ => false)
      (fun _ => false) (fun _ => false)).1.all (fun r => !r.plannerRan)) = true := by
  have h := (executor_planner_gating sampleLoopConfig (fun _ => true) (fun _ => false)
    (fun _ => false) (fun _ => false)).2.1 (by decide)
  rw [List.all_eq_true]
  intro r hr
  simp [h r hr]

/-- Updating a favorite changes neither the sequence of identifiers nor
`nextId`. -/
theorem updateFavorite_ids (i : Nat) (n c u : Str) (s : CodeFavoritesStorage) :
    (updateFavorite i n c u s).1.favorites.map (fun f => f.id) =
      s.favorites.map (fun f => f.id) ∧
    (updateFavorite i n c u s).1.nextId = s.nextId := by
  unfold updateFavorite
  cases h : (s.favorites.filter (fun favorite => favorite.id == i)).getLast? with
  | none => simp [h]
  | some fav =>
    simp only [h]
    refine ⟨?_, trivial⟩
    rw [List.map_map]
    apply List.map_congr_left
    intro a _
    simp only [Function.comp]
    split <;> rfl

/-- Incrementing a use count changes neither the identifiers nor `nextId`. -/
theorem incrementUseCount_ids (i : Nat) (s : CodeFavoritesStorage) :
    (incrementUseCount i s).favorites.map (fun f => f.id) =
      s.favorites.map (fun f => f.id) ∧
    (incrementUseCount i s).nextId = s.nextId := by
  refine ⟨?_, rfl⟩
  unfold incrementUseCount
  rw [List.map_map]
  apply List.map_congr_left
  intro a _
  simp only [Function.comp]
  split <;> rfl

/-- Removing a favorite keeps a sublist of the identifiers and `nextId`. -/
theorem removeFavorite_ids (i : Nat) (s : CodeFavoritesStorage) :
    ((removeFavorite i s).favorites.map (fun f => f.id)).Sublist
      (s.favorites.map (fun f => f.id)) ∧
    (removeFavorite i s).nextId = s.nextId :=
  ⟨(List.filter_sublist _).map _, rfl⟩

/-- `nextId` never decreases across an operation. -/
theorem applyOp_nextId_le (op : FavOp) (s : CodeFavoritesStorage) :
    s.nextId ≤ (applyOp op s).nextId := by
  cases op with
  | add n c u t => exact Nat.le_succ _
  | update i n c u => exact Nat.le_of_eq ((updateFavorite_ids i n c u s).2).symm
  | remove i => exact Nat.le_refl _
  | increment i => exact Nat.le_refl _

/-- One operation preserves the identifier-space invariant: every stored
identifier is below `nextId` and the identifiers are pairwise distinct. -/
theorem applyOp_invariant (op : FavOp) (s : CodeFavoritesStorage)
    (h1 : ∀ x ∈ s.favorites.map (fun f => f.id), x < s.nextId)
    (h2 : (s.favorites.map (fun f => f.id)).Nodup) :
    (∀ x ∈ (applyOp op s).favorites.map (fun f => f.id), x < (applyOp op s).nextId) ∧
    ((applyOp op s).favorites.map (fun f => f.id)).Nodup := by
  cases op with
  | add n c u t =>
    constructor
    · intro x hx
      simp only [applyOp, addFavorite, List.map_cons, List.mem_cons] at hx ⊢
      rcases hx with hx | hx
      · omega
      · exact Nat.lt_succ_of_lt (h1 x hx)
    · simp only [applyOp, addFavorite, List.map_cons]
      exact List.Nodup.cons (fun hmem => Nat.lt_irrefl _ (h1 _ hmem)) h2
  | update i n c u =>
    have hid := updateFavorite_ids i n c u s
    constructor
    · intro x hx
      rw [show applyOp (FavOp.update i n c u) s = (updateFavorite i n c u s).1 from rfl,
        hid.1] at hx
      rw [show applyOp (FavOp.update i n c u) s = (updateFavorite i n c u s).1 from rfl,
        hid.2]
      exact h1 x hx
    · rw [show applyOp (FavOp.update i n c u) s = (updateFavorite i n c u s).1 from rfl,
        hid.1]
      exact h2
  | remove i =>
    have hid := removeFavorite_ids i s
    constructor
    · intro x hx
      exact h1 x (hid.1.subset hx)
    · exact h2.sublist hid.1
  | increment i =>
    have hid := incrementUseCount_ids i s
    constructor
    · intro x hx
      rw [show applyOp (FavOp.increment i) s = incrementUseCount i s from rfl, hid.1] at hx
      exact h1 x hx
    · rw [show applyOp (FavOp.increment i) s = incrementUseCount i s from rfl, hid.1]
      exact h2

/-- A whole run preserves the identifier-space invariant. -/
theorem applyOps_invariant (ops : List FavOp) :
    ∀ (s : CodeFavoritesStorage),
    (∀ x ∈ s.favorites.map (fun f => f.id), x < s.nextId) →
    (s.favorites.map (fun f => f.id)).Nodup →
    (∀ x ∈ (applyOps ops s).favorites.map (fun f => f.id),
       x < (applyOps ops s).nextId) ∧
    ((applyOps ops s).favorites.map (fun f => f.id)).Nodup := by
  induction ops with
  | nil => intro s h1 h2; exact ⟨h1, h2⟩
  | cons op ops ih =>
    intro s h1 h2
    have h := applyOp_invariant op s h1 h2
    simpa [applyOps] using ih (applyOp op s) h.1 h.2

/-- Every identifier a run allocates is at least the starting `nextId`. -/
theorem allocIds_lowerBound (ops : List FavOp) :
    ∀ (s : CodeFavoritesStorage), ∀ x ∈ allocIds ops s, s.nextId ≤ x := by
  induction ops with
  | nil => intro s x hx; simp [allocIds] at hx
  | cons op ops ih =>
    intro s x hx
    cases op with
    | add n c u t =>
      simp only [allocIds, List.mem_cons] at hx
      rcases hx with hx | hx
      · omega
      · exact Nat.le_trans (applyOp_nextId_le _ s) (ih _ x hx)
    | update i n c u =>
      simp only [allocIds] at hx
      exact Nat.le_trans (applyOp_nextId_le _ s) (ih _ x hx)
    | remove i =>
      simp only [allocIds] at hx
      exact Nat.le_trans (applyOp_nextId_le _ s) (ih _ x hx)
    | increment i =>
      simp only [allocIds] at hx
      exact Nat.le_trans (applyOp_nextId_le _ s) (ih _ x hx)

/-- The identifiers allocated along any run are strictly increasing in
allocation order: identifiers are pairwise distinct and never reused, even
after a deletion. -/
theorem allocIds_pairwise (ops : List FavOp) :
    ∀ (s : CodeFavoritesStorage), (allocIds ops s).Pairwise (· < ·) := by
  induction ops with
  | nil => intro s; simp [allocIds]
  | cons op ops ih =>
    intro s
    cases op with
    | add n c u t =>
      simp only [allocIds]
      refine List.Pairwise.cons ?_ (ih _)
      intro x hx
      have := allocIds_lowerBound ops _ x hx
      simp only [applyOp, addFavorite] at this
      omega
    | update i n c u => simpa [allocIds] using ih _
    | remove i => simpa [allocIds] using ih _
    | increment i => simpa [allocIds] using ih _

/-- C6: in every collection state reachable from the initial state by any
operation sequence, `nextId` strictly exceeds every stored identifier and the
identifiers are pairwise distinct; the identifiers allocated along any run
are strictly increasing, so an identifier is never reused even after
deletion; and two successive `addFavorite` calls return strictly increasing
identifiers. -/
theorem favorites_identifier_invariant :
    (∀ ops : List FavOp,
       (∀ f ∈ (applyOps ops favoritesInitialState).favorites,
          f.id < (applyOps ops favoritesInitialState).nextId) ∧
       ((applyOps ops favoritesInitialState).favorites.map (fun f => f.id)).Nodup) ∧
    (∀ ops : List FavOp, (allocIds ops favoritesInitialState).Pairwise (· < ·)) ∧
    (∀ (s : CodeFavoritesStorage) (n1 c1 u1 : Str) (t1 : Nat) (n2 c2 u2 : Str)
       (t2 : Nat),
       (addFavorite n1 c1 u1 t1 s).2.id <
         (addFavorite n2 c2 u2 t2 (addFavorite n1 c1 u1 t1 s).1).2.id) := by
  refine ⟨?_, ?_, ?_⟩
  · intro ops
    have h := applyOps_invariant ops favoritesInitialState
      (by simp [favoritesInitialState]) (by simp [favoritesInitialState])
    exact ⟨fun f hf => h.1 f.id (List.mem_map_of_mem _ hf), h.2⟩
  · intro ops
    exact allocIds_pairwise ops _
  · intro s n1 c1 u1 t1 n2 c2 u2 t2
    simp [addFavorite]

/-- C6 witness: after an add, a remove of that identifier and a second add,
the stored record allocated by the second add has its identifier below the
collection's `nextId`, by the reachable-state invariant. -/
theorem favorites_identifier_invariant_witness :
    ({ id := 2, name := "b".data, code := "d".data, urlPattern := "v".data,
       useCount := 0, createdAt := 6 } : CodeFavorite).id <
      (applyOps [FavOp.add "a".data "c".data "u".data 5, FavOp.remove 1,
        FavOp.add "b".data "d".data "v".data 6] favoritesInitialState).nextId := by
  have h := favorites_identifier_invariant.1
    [FavOp.add "a".data "c".data "u".data 5, FavOp.remove 1,
     FavOp.add "b".data "d".data "v".data 6]
  exact h.1 _ (by decide)

/-- C7: any two URLs that both parse and share an origin match, and in the
concrete retrieval example the same-origin favorite is returned while the
different-origin favorite is not. -/
theorem sameOrigin_matches :
    (∀ (url pattern : Str) (u p : URLParts), parseURL url = some u →
       parseURL pattern = some p → urlOrigin u = urlOrigin p →
       urlMatchesPattern url pattern = true) ∧
    getFavoritesByUrl "https://example.com/page2".data sampleCollection =
      [sampleFav1] := by
  constructor
  · intro url pattern u p hu hp horigin
    simp only [urlMatchesPattern, hu, hp]
    by_cases heq : url = pattern
    · simp [heq]
    · simp [heq, horigin]
  · decide

/-- C7 witness: a same-origin URL pair, matched by applying the theorem at
the parsed parts of both strings. -/
theorem sameOrigin_matches_witness :
    urlMatchesPattern "https://example.com/page2".data
      "https://example.com/page1".data = true :=
  sameOrigin_matches.1 _ _
    ⟨"https".data, "example.com".data, [], "/page2".data⟩
    ⟨"https".data, "example.com".data, [], "/page1".data⟩
    (by decide) (by decide) (by decide)

/-- With distinct stored identifiers, filtering for one present identifier
yields exactly its record. -/
theorem filter_id_singleton {l : List CodeFavorite} {i : Nat}
    (hnd : (l.map (fun f => f.id)).Nodup) {f0 : CodeFavorite}
    (hf0 : f0 ∈ l) (hid : f0.id = i) :
    l.filter (fun f => f.id == i) = [f0] := by
  induction l with
  | nil => cases hf0
  | cons h t ih =>
    simp only [List.map_cons, List.nodup_cons] at hnd
    rcases List.mem_cons.mp hf0 with rfl | hf0t
    · rw [List.filter_cons_of_pos (by simp [hid])]
      have hnil : t.filter (fun f => f.id == i) = [] := by
        rw [List.filter_eq_nil_iff]
        intro a hat hai
        have haid : a.id = i := by simpa using hai
        exact hnd.1 (List.mem_map.mpr ⟨a, hat, haid.trans hid.symm⟩)
      rw [hnil]
    · have hne : ¬ (h.id == i) = true := by
        intro hh
        have hhid : h.id = i := by simpa using hh
        exact hnd.1 (List.mem_map.mpr ⟨f0, hf0t, hid.trans hhid.symm⟩)
      rw [List.filter_cons, if_neg hne]
      exact ih hnd.2 hf0t

/-- C8: updating an absent identifier returns `none` and leaves the stored
collection unchanged; updating a present identifier (in a collection with
distinct identifiers) returns the record with only name, code and urlPattern
replaced — identifier, use count and creation time preserved — changes
exactly the matching stored record, and leaves `nextId` and every other
record unchanged. -/
theorem updateFavorite_spec (i : Nat) (n c u : Str) (s : CodeFavoritesStorage) :
    ((∀ f ∈ s.favorites, f.id ≠ i) → updateFavorite i n c u s = (s, none)) ∧
    (∀ f0 ∈ s.favorites, f0.id = i → (s.favorites.map (fun f => f.id)).Nodup →
       (updateFavorite i n c u s).2 =
         some { f0 with name := n, code := c, urlPattern := u } ∧
       (updateFavorite i n c u s).1.nextId = s.nextId ∧
       (updateFavorite i n c u s).1.favorites =
         s.favorites.map (fun f =>
           if f.id == i then { f with name := n, code := c, urlPattern := u }
           else f) ∧
       (∀ f ∈ s.favorites, f.id ≠ i →
          f ∈ (updateFavorite i n c u s).1.favorites)) := by
  constructor
  · intro hno
    have hfil : s.favorites.filter (fun f => f.id == i) = [] := by
      rw [List.filter_eq_nil_iff]
      intro a ha hai
      exact hno a ha (by simpa using hai)
    unfold updateFavorite
    rw [hfil]
    rfl
  · intro f0 hf0 hid hnd
    have hfil := filter_id_singleton hnd hf0 hid
    have hsnd : (updateFavorite i n c u s).2 =
        some { f0 with name := n, code := c, urlPattern := u } := by
      unfold updateFavorite
      rw [hfil]
      rfl
    have hfst : (updateFavorite i n c u s).1.favorites =
        s.favorites.map (fun f =>
          if f.id == i then { f with name := n, code := c, urlPattern := u }
          else f) := by
      unfold updateFavorite
      rw [hfil]
      rfl
    have hnid : (updateFavorite i n c u s).1.nextId = s.nextId := by
      unfold updateFavorite
      rw [hfil]
      rfl
    refine ⟨hsnd, hnid, hfst, ?_⟩
    intro f hf hne
    rw [hfst]
    refine List.mem_map.mpr ⟨f, hf, ?_⟩
    rw [if_neg (by simpa using hne)]

/-- C8 witness: updating the present identifier 1 in the sample collection
returns the updated record with use count and creation time preserved and
leaves `nextId` unchanged. -/
theorem updateFavorite_spec_witness :
    (updateFavorite 1 "renamed".data "code9".data "https://example.com/*".data
       sampleCollection).2 =
      some { id := 1, name := "renamed".data, code := "code9".data,
             urlPattern := "https://example.com/*".data, useCount := 0,
             createdAt := 100 } ∧
    (updateFavorite 1 "renamed".data "code9".data "https://example.com/*".data
       sampleCollection).1.nextId = 3 := by
  have h := (updateFavorite_spec 1 "renamed".data "code9".data
    "https://example.com/*".data sampleCollection).2
    sampleFav1 (by decide) (by decide) (by decide)
  refine ⟨?_, ?_⟩
  · rw [h.1]
    rfl
  · rw [h.2.1]
    rfl

/-- C9: the URL matcher is a total boolean function, and whenever either
string fails to parse as a URL it equals the best-effort fallback of plain
equality or substring containment in either direction. -/
theorem urlMatches_fallback (url pattern : Str)
    (h : parseURL url = none ∨ parseURL pattern = none) :
    urlMatchesPattern url pattern =
      (decide (url = pattern) || decide (pattern <:+: url) ||
       decide (url <:+: pattern)) := by
  unfold urlMatchesPattern
  cases hu : parseURL url with
  | none =>
    cases hp : parseURL pattern with
    | none => rfl
    | some p => rfl
  | some q =>
    cases hp : parseURL pattern with
    | none => rfl
    | some p =>
      rcases h with h | h
      · rw [hu] at h; cases h
      · rw [hp] at h; cases h

/-- C9 witness: on two strings that are not URLs, the matcher degrades to the
substring heuristic and answers true for a contained pattern. -/
theorem urlMatches_fallback_witness :
    urlMatchesPattern "hello world".data "lo wo".data = true := by
  have h := urlMatches_fallback "hello world".data "lo wo".data (Or.inl (by decide))
  rw [h]
  decide

/-- C10: the Navigator system prompt equals the trimmed, placeholder-
substituted base template with the code-execution section appended exactly
when `settings?.allowCodeGeneration` is true; with the flag false or the
settings absent the prompt is exactly the base, and (whenever the base does
not accidentally contain the section) the prompt contains the section iff the
flag is set. -/
theorem navigator_prompt_code_section (template : Str) (maxActionsPerStep : Nat)
    (settings : Option GeneralSettingsConfig) :
    (allowCodeGen settings = true →
       buildNavigatorPrompt template maxActionsPerStep settings =
         navigatorBasePrompt template maxActionsPerStep ++ codeExecutionSection) ∧
    (allowCodeGen settings = false →
       buildNavigatorPrompt template maxActionsPerStep settings =
         navigatorBasePrompt template maxActionsPerStep) ∧
    (settings = none → allowCodeGen settings = false) ∧
    (¬ codeExecutionSection <:+: navigatorBasePrompt template maxActionsPerStep →
       (codeExecutionSection <:+:
          buildNavigatorPrompt template maxActionsPerStep settings ↔
        allowCodeGen settings = true)) := by
  refine ⟨?_, ?_, ?_, ?_⟩
  · intro h
    simp [buildNavigatorPrompt, h]
  · intro h
    simp [buildNavigatorPrompt, h]
  · intro h
    subst h
    rfl
  · intro hni
    cases hacg : allowCodeGen settings with
    | false =>
      have heq : buildNavigatorPrompt template maxActionsPerStep settings =
          navigatorBasePrompt template maxActionsPerStep := by
        simp [buildNavigatorPrompt, hacg]
      rw [heq]
      constructor
      · intro hinf
        exact absurd hinf hni
      · intro habs
        cases habs
    | true =>
      have heq : buildNavigatorPrompt template maxActionsPerStep settings =
          navigatorBasePrompt template maxActionsPerStep ++ codeExecutionSection := by
        simp [buildNavigatorPrompt, hacg]
      rw [heq]
      constructor
      · intro _
        rfl
      · intro _
        exact (List.suffix_append _ _).isInfix

/-- C10 witness: with code generation enabled, the prompt built from a small
template contains the code-execution section; the base prompt alone does
not. -/
theorem navigator_prompt_witness :
    codeExecutionSection <:+:
      buildNavigatorPrompt "Do at most \x7b\x7bmax_actions\x7d\x7d actions.".data 10
        (some { allowCodeGeneration := true, fastJsMode := false }) := by
  have h := (navigator_prompt_code_section
    "Do at most \x7b\x7bmax_actions\x7d\x7d actions.".data 10
    (some { allowCodeGeneration := true, fastJsMode := false })).2.2.2
  exact (h (by decide)).mpr rfl

end Nanobrowser
